import Mathlib

/-!
Verification of the meal-ledger core of the `mela-mcp` repository
(`src/mela_mcp/meal_log.py`, `src/mela_mcp/server.py`,
`src/mela_mcp/calendar.py`) against its natural-language specification.

The SQLite-backed ledger is embedded shallowly: the `meals` table is a
`List MealRecord` in insertion (rowid) order, SQL text comparison is
byte-wise comparison of the UTF-8 encoding (modelled as lexicographic
comparison of code points, which agrees with byte order for UTF-8),
SQL `LIKE` is modelled with its default ASCII-case-insensitive wildcard
semantics, and `datetime.now()` readings are passed in as explicit
`now` / cutoff parameters.  Fallible operations return `Except`.
-/

/-! ### Character-list string primitives

Python/SQLite string operations (`split(",")`, `strip()`, `<=` on TEXT,
`LIKE`) are modelled over `List Char`.  Core `String` functions are not
used because the claims are settled on concrete inputs by evaluation.
-/

/-- Strict lexicographic order on character lists (SQLite BINARY collation
on TEXT values; code-point order coincides with byte order for UTF-8). -/
def lexLtCh : List Char → List Char → Bool
  | [], [] => false
  | [], _ :: _ => true
  | _ :: _, [] => false
  | a :: as, b :: bs => if a < b then true else if b < a then false else lexLtCh as bs

/-- `strLt a b` models SQL `a < b` on TEXT values. -/
def strLt (a b : String) : Bool := lexLtCh a.data b.data

/-- `strLe a b` models SQL `a <= b` on TEXT values. -/
def strLe (a b : String) : Bool := ! lexLtCh b.data a.data

/-- `strMax a b` models SQL `MAX` accumulation over TEXT values. -/
def strMax (a b : String) : String := if strLe a b then b else a

/-- Python `str.split(",")`, which never returns an empty list and keeps
empty pieces. -/
def splitCommaAux : List Char → List Char → List (List Char)
  | acc, [] => [acc.reverse]
  | acc, c :: cs =>
    if c = ',' then acc.reverse :: splitCommaAux [] cs else splitCommaAux (c :: acc) cs

/-- `splitComma s` models Python `s.split(",")`. -/
def splitComma (s : String) : List (List Char) := splitCommaAux [] s.data

/-- ASCII whitespace as stripped by Python `str.strip()` on the inputs at
hand. -/
def isWs (c : Char) : Bool := c = ' ' || c = '\t' || c = '\n' || c = '\r'

/-- `trimCh l` models Python `str.strip()`. -/
def trimCh (l : List Char) : List Char :=
  ((l.dropWhile isWs).reverse.dropWhile isWs).reverse

/-- All suffixes of a character list, longest first (the list itself down
to `[]`). -/
def suffixesCh : List Char → List (List Char)
  | [] => [[]]
  | c :: cs => (c :: cs) :: suffixesCh cs

/-- Case-sensitive "starts with" on character lists. -/
def leadsWith : List Char → List Char → Bool
  | [], _ => true
  | _ :: _, [] => false
  | a :: as, b :: bs => a = b && leadsWith as bs

/-- Case-sensitive "occurs as a contiguous substring" on character lists.
This is the plain-substring reading used by the specification text. -/
def occursIn (p s : List Char) : Bool := (suffixesCh s).any (fun t => leadsWith p t)

/-- SQLite `LIKE` pattern matching: `%` matches any sequence, `_` any
single character, and plain characters compare ASCII-case-insensitively
(`Char.toLower` folds exactly the ASCII uppercase letters, matching
SQLite's default `LIKE` behaviour). -/
def likeMatch : List Char → List Char → Bool
  | [], s => s.isEmpty
  | p :: ps, s =>
    if p = '%' then (suffixesCh s).any (fun t => likeMatch ps t)
    else
      match s with
      | [] => false
      | c :: cs => (if p = '_' then true else p.toLower = c.toLower) && likeMatch ps cs

/-! ### Data model (`meals` table, meal_log.py lines 20-33) -/

/-- One row of the `meals` table.  `recipe_id`, `tags`, `portions`,
`notes` are nullable columns; timestamps are ISO strings. -/
structure MealRecord where
  id : Nat
  date : String
  title : String
  recipe_id : Option Int
  tags : Option String
  status : String
  portions : Option Int
  notes : Option String
  created_at : String
  updated_at : String
deriving DecidableEq, Repr

/-- AUTOINCREMENT id assignment: one more than the largest id ever used
(no deletes exist, so the maximum over current rows). -/
def nextId (rows : List MealRecord) : Nat := (rows.map (fun r => r.id)).foldl max 0 + 1

/-! ### meal_log.log_meal (meal_log.py lines 46-70) -/

/-- `log_meal`: INSERT a new row with `created_at = updated_at = now` and
return it together with the new table state.  No validation of any field
is performed by the source. -/
def log_meal (date title : String) (recipe_id : Option Int) (tags : Option String)
    (status : String) (portions : Option Int) (notes : Option String)
    (now : String) (rows : List MealRecord) : MealRecord × List MealRecord :=
  let r : MealRecord :=
    { id := nextId rows, date := date, title := title, recipe_id := recipe_id,
      tags := tags, status := status, portions := portions, notes := notes,
      created_at := now, updated_at := now }
  (r, rows ++ [r])

/-! ### meal_log.update_meal (meal_log.py lines 73-103) -/

/-- The keyword arguments of `update_meal` after the whitelist filter:
a value of `none` models a key that is absent or bound to Python `None`
(both are dropped by the filter on line 79). -/
structure UpdateFields where
  date : Option String := none
  title : Option String := none
  recipe_id : Option Int := none
  tags : Option String := none
  status : Option String := none
  portions : Option Int := none
  notes : Option String := none
deriving DecidableEq, Repr

/-- `fields` dict is empty: no whitelisted key present with a non-`None`
value. -/
def UpdateFields.isEmpty (u : UpdateFields) : Bool :=
  u.date.isNone && u.title.isNone && u.recipe_id.isNone && u.tags.isNone &&
  u.status.isNone && u.portions.isNone && u.notes.isNone

/-- Apply the SET clause of the UPDATE statement to one row: each present
field is rewritten, `updated_at` is set to `now`, everything else kept. -/
def applyFields (u : UpdateFields) (now : String) (r : MealRecord) : MealRecord :=
  { r with
    date := u.date.getD r.date,
    title := u.title.getD r.title,
    recipe_id := (u.recipe_id.map some).getD r.recipe_id,
    tags := (u.tags.map some).getD r.tags,
    status := u.status.getD r.status,
    portions := (u.portions.map some).getD r.portions,
    notes := (u.notes.map some).getD r.notes,
    updated_at := now }

/-- Errors raised by the ledger store.  The source raises
`ValueError(f"No meal with id {meal_id}")`; the specification's taxonomy
names this failure `NotFoundError`. -/
inductive MealLogError where
  | notFound (meal_id : Nat)
deriving DecidableEq, Repr

/-- `SELECT * FROM meals WHERE id = ?` (first row in rowid order). -/
def findMeal (meal_id : Nat) (rows : List MealRecord) : Option MealRecord :=
  rows.find? (fun r => r.id = meal_id)

/-- `update_meal`: with no applicable fields, a bare SELECT that raises
when the id is unknown and otherwise returns the row untouched; with
fields, an UPDATE of every row matching the id followed by the same
SELECT-or-raise. -/
def update_meal (meal_id : Nat) (u : UpdateFields) (now : String)
    (rows : List MealRecord) : Except MealLogError (MealRecord × List MealRecord) :=
  if u.isEmpty then
    match findMeal meal_id rows with
    | none => .error (.notFound meal_id)
    | some r => .ok (r, rows)
  else
    let rows2 := rows.map (fun r => if r.id = meal_id then applyFields u now r else r)
    match findMeal meal_id rows2 with
    | none => .error (.notFound meal_id)
    | some r => .ok (r, rows2)

/-! ### meal_log.get_meals (meal_log.py lines 106-139) -/

/-- Python truthiness of an optional-string parameter (`if start_date:`
etc.): present and non-empty. -/
def pyTruthy : Option String → Bool
  | none => false
  | some s => ! s.data.isEmpty

/-- One `tags LIKE ?` condition with parameter `%token.strip()%`; a NULL
`tags` column satisfies no LIKE pattern (the comparison yields SQL NULL,
which the WHERE clause rejects). -/
def tagLike (tok : List Char) (r : MealRecord) : Bool :=
  match r.tags with
  | none => false
  | some t => likeMatch ('%' :: (trimCh tok ++ ['%'])) t.data

/-- The three non-tag WHERE conditions of `get_meals`, each added only
when its parameter is truthy. -/
def mealMatchesBase (start_date end_date status : Option String) (r : MealRecord) : Bool :=
  (if pyTruthy start_date then strLe (start_date.getD "") r.date else true) &&
  (if pyTruthy end_date then strLe r.date (end_date.getD "") else true) &&
  (if pyTruthy status then r.status = status.getD "" else true)

/-- Full WHERE clause of `get_meals`: the base conditions AND one LIKE
condition per comma-separated token of the `tags` parameter. -/
def mealMatches (start_date end_date status tags : Option String) (r : MealRecord) : Bool :=
  mealMatchesBase start_date end_date status r &&
  (if pyTruthy tags then (splitComma (tags.getD "")).all (fun tok => tagLike tok r)
   else true)

/-- Stable insertion step: `x` is placed before the first element `y`
that does not strictly precede it (`lt y x = false`), so an element of
the unsorted list keeps its place relative to equal keys. -/
def insSorted (lt : α → α → Bool) (x : α) : List α → List α
  | [] => [x]
  | y :: ys => if lt y x then y :: insSorted lt x ys else x :: y :: ys

/-- Stable sort by the strict precedence predicate `lt`.  A stable sort
is determined uniquely by the key order, so this models both SQLite's
`ORDER BY` (whose tie order the claims never rely on) and Python's
stable `sorted`. -/
def sortWith (lt : α → α → Bool) : List α → List α
  | [] => []
  | x :: xs => insSorted lt x (sortWith lt xs)

/-- `ORDER BY date DESC`: `y` precedes `x` when its date is strictly
later. -/
def dateDescLt (y x : MealRecord) : Bool := strLt x.date y.date

/-- `get_meals`: filtered scan of the table ordered by `date` descending. -/
def get_meals (start_date end_date status tags : Option String)
    (rows : List MealRecord) : List MealRecord :=
  sortWith dateDescLt (rows.filter (mealMatches start_date end_date status tags))

/-! ### meal_log.get_tag_frequency (meal_log.py lines 157-174)

A Python `dict` is an insertion-ordered association list;
`freq[tag] = freq.get(tag, 0) + 1` keeps the key in place when present
and appends it otherwise.
-/

/-- Python `d.get(k)` on the association-list model of a dict. -/
def dictGet (d : List (String × Nat)) (k : String) : Option Nat :=
  match d.find? (fun kv => kv.1 = k) with
  | some kv => some kv.2
  | none => none

/-- Python `d.get(k, 0)`. -/
def dictGetD (d : List (String × Nat)) (k : String) : Nat := (dictGet d k).getD 0

/-- Python `d[k] = d.get(k, 0) + 1`. -/
def dictIncr (d : List (String × Nat)) (k : String) : List (String × Nat) :=
  match d with
  | [] => [(k, 1)]
  | (k', v) :: rest => if k' = k then (k', v + 1) :: rest else (k', v) :: dictIncr rest k

/-- The inner loop of `get_tag_frequency`: split one row's tag string on
commas, strip each piece, count the non-empty ones. -/
def addTags (d : List (String × Nat)) (tagsStr : String) : List (String × Nat) :=
  (splitComma tagsStr).foldl
    (fun d tok =>
      if (trimCh tok).isEmpty then d else dictIncr d (String.mk (trimCh tok))) d

/-- Rows scanned by `get_tag_frequency`:
`WHERE tags IS NOT NULL AND date >= cutoff` where
`cutoff = (now - timedelta(days)).strftime("%Y-%m-%d")`. -/
def tagFreqRows (cutoff : String) (rows : List MealRecord) : List MealRecord :=
  rows.filter (fun r => r.tags.isSome && strLe cutoff r.date)

/-- `get_tag_frequency`, parametrised by the already-formatted cutoff
date `today - days`. -/
def get_tag_frequency (cutoff : String) (rows : List MealRecord) : List (String × Nat) :=
  (tagFreqRows cutoff rows).foldl (fun d r => addTags d (r.tags.getD "")) []

/-- Direct occurrence count of a tag token: total number of trimmed
comma-pieces equal to `tag` across the scanned rows. -/
def tagOccCount (cutoff : String) (tag : String) (rows : List MealRecord) : Nat :=
  ((tagFreqRows cutoff rows).map
    (fun r => ((splitComma (r.tags.getD "")).map trimCh).count tag.data)).sum

/-- The tag-frequency computation as the claim words it: each scanned row
increments each of its *distinct* non-empty trimmed tag tokens once.
This definition follows the specification's words and exists only to be
compared with `get_tag_frequency`, which follows the source. -/
def tagFrequencyClaimDistinct (cutoff : String) (rows : List MealRecord) : List (String × Nat) :=
  (tagFreqRows cutoff rows).foldl
    (fun d r =>
      ((((splitComma (r.tags.getD "")).map trimCh).filter (fun t => ! t.isEmpty)).dedup).foldl
        (fun d t => dictIncr d (String.mk t)) d) []

/-! ### meal_log.get_stale_meals (meal_log.py lines 177-200) -/

/-- One result row of the stale-meals GROUP BY query. -/
structure StaleRow where
  title : String
  recipe_id : Option Int
  last_date : String
  times_cooked : Nat
deriving DecidableEq, Repr

/-- `COALESCE(recipe_id, title)` as a SQLite grouping value: an INTEGER
and a TEXT value are never equal, so the key is a sum. -/
def staleKey (r : MealRecord) : Int ⊕ String :=
  match r.recipe_id with
  | some i => Sum.inl i
  | none => Sum.inr r.title

/-- Recover the grouping key from a result row (every row of a group
shares `recipe_id`-presence with its key). -/
def rowKey (g : StaleRow) : Int ⊕ String :=
  match g.recipe_id with
  | some i => Sum.inl i
  | none => Sum.inr g.title

/-- `WHERE date >= window_start AND status IN ('cooked', 'planned')`. -/
def staleEligible (window_start : String) (r : MealRecord) : Bool :=
  strLe window_start r.date && (r.status = "cooked" || r.status = "planned")

/-- Distinct grouping keys in first-appearance order. -/
def dedupKeys : List (Int ⊕ String) → List (Int ⊕ String)
  | [] => []
  | k :: ks => k :: (dedupKeys ks).filter (fun k2 => k2 ≠ k)

/-- `MAX(date)` over a group, given the first row's date and the rest. -/
def maxDateOf (d : String) (rest : List MealRecord) : String :=
  (rest.map (fun r => r.date)).foldl strMax d

/-- `SELECT title, recipe_id, MAX(date), COUNT(*)` for one group.
SQLite leaves the bare columns `title`, `recipe_id` unspecified among the
group's rows (two aggregates are present); the embedding takes them from
the group's first row in scan order. -/
def groupSummary (g : List MealRecord) : Option StaleRow :=
  match g with
  | [] => none
  | r :: rest =>
    some { title := r.title, recipe_id := r.recipe_id,
           last_date := maxDateOf r.date rest, times_cooked := (r :: rest).length }

/-- All GROUP BY groups of the stale-meals query, before the HAVING
filter and the ORDER BY. -/
def staleGroups (window_start : String) (rows : List MealRecord) : List StaleRow :=
  let elig := rows.filter (staleEligible window_start)
  (dedupKeys (elig.map staleKey)).filterMap
    (fun k => groupSummary (elig.filter (fun r => staleKey r = k)))

/-- `ORDER BY last_date ASC`: `y` precedes `x` when its last_date is
strictly earlier. -/
def lastAscLt (y x : StaleRow) : Bool := strLt y.last_date x.last_date

/-- `get_stale_meals`, parametrised by the formatted cutoffs
`window_start = today - days` and `stale_cutoff = today - min_gap`:
groups with `HAVING MAX(date) < stale_cutoff`, ordered by `last_date`. -/
def get_stale_meals (window_start stale_cutoff : String)
    (rows : List MealRecord) : List StaleRow :=
  sortWith lastAscLt
    ((staleGroups window_start rows).filter (fun g => strLt g.last_date stale_cutoff))

/-! ### server.schedule_meal (server.py lines 72-98, calendar.py lines 74-122) -/

/-- A recipe row as returned by `database.search_recipes`. -/
structure Recipe where
  id : Int
  title : String
deriving DecidableEq, Repr

/-- Python `str.lower()` on the ASCII fragment exercised here. -/
def lowerStr (s : String) : String := String.mk (s.data.map Char.toLower)

/-- Recipe-id resolution (server.py lines 84-89): the first search result
whose lower-cased title equals the lower-cased query wins. -/
def resolveRecipeId (recipe_name : String) (searchResults : List Recipe) : Option Int :=
  match searchResults.find? (fun m => lowerStr m.title = lowerStr recipe_name) with
  | some m => some m.id
  | none => none

/-- The parameter names of `calendar.schedule_meal`
(calendar.py line 74: `calendar_name`, `title`, `date`, `time`). -/
def calendarScheduleMealParams : List String :=
  ["calendar_name", "title", "date", "time"]

/-- The keyword-argument names passed at the call site server.py line 90
beyond the positional arguments. -/
def scheduleCallKwargs : List String := ["recipe_id"]

/-- Python raises `TypeError` when a call passes a keyword argument that
matches no parameter of the callee. -/
inductive PyCallError where
  | typeError (msg : String)
deriving DecidableEq, Repr

/-- `server.schedule_meal`: resolve the recipe id from the search
results, invoke `calendar.schedule_meal` (its external AppleScript
outcome is supplied as the oracle `calSuccess`), and on success INSERT a
`status="planned"` ledger row.  The call site passes the keyword
argument `recipe_id`, which `calendar.schedule_meal` does not accept, so
Python's call binding raises `TypeError` before the callee body runs. -/
def schedule_meal (recipe_name date time : String) (searchResults : List Recipe)
    (calSuccess : Bool) (now : String) (rows : List MealRecord) :
    Except PyCallError (Bool × List MealRecord) :=
  let recipe_id := resolveRecipeId recipe_name searchResults
  if scheduleCallKwargs.all (fun k => calendarScheduleMealParams.contains k) then
    if calSuccess then
      let logged := log_meal date recipe_name recipe_id none "planned" none none now rows
      .ok (true, logged.2)
    else .ok (false, rows)
  else
    .error (.typeError "schedule_meal() got an unexpected keyword argument recipe_id")

/-! ### server.get_meal_suggestions (server.py lines 196-238) -/

/-- The loop over `all_meals` building `adhoc_counts`: count per title
over rows with `recipe_id is None and status == "cooked"`. -/
def adhocCounts (meals : List MealRecord) : List (String × Nat) :=
  meals.foldl
    (fun d m => if m.recipe_id.isNone && m.status = "cooked" then dictIncr d m.title else d)
    []

/-- `sorted(..., key=lambda x: -x[1])` (Python's sort is stable on
ties): `y` precedes `x` when its count is strictly larger. -/
def countDescLt (y x : String × Nat) : Bool := x.2 < y.2

/-- `frequent_adhoc` (server.py lines 213-225): fetch
`get_meals(start_date = today - days_back)` — no end bound, no status
filter — count cooked ad-hoc titles, sort by count descending, keep
counts ≥ 3. -/
def frequent_adhoc (cutoff : String) (rows : List MealRecord) : List (String × Nat) :=
  let all_meals := get_meals (some cutoff) none none none rows
  (sortWith countDescLt (adhocCounts all_meals)).filter (fun x => 3 ≤ x.2)

/-- Direct count of cooked ad-hoc rows with a given title inside the
window. -/
def adhocTitleCount (cutoff : String) (rows : List MealRecord) (t : String) : Nat :=
  (rows.filter (fun r =>
    strLe cutoff r.date && r.recipe_id.isNone && r.status = "cooked" && r.title = t)).length

/-- `avg = sum(tag_freq.values()) / len(tag_freq) if tag_freq else 0`
(server.py line 228).  The Python value is a float; the embedding uses
exact rationals, which the guard logic below only compares with zero. -/
def tag_average (freq : List (String × Nat)) : ℚ :=
  if freq.isEmpty then 0
  else ((freq.map (fun x => (x.2 : ℚ))).sum) / (freq.length : ℚ)

/-- `over_tags = {t: c for t, c in tag_freq.items() if c > avg * 1.5} if avg else {}`
(server.py line 229; `if avg` is Python truthiness, i.e. `avg != 0`). -/
def over_tags (freq : List (String × Nat)) : List (String × Nat) :=
  if tag_average freq ≠ 0 then
    freq.filter (fun x => tag_average freq * (3 / 2 : ℚ) < (x.2 : ℚ))
  else []

/-- `under_tags = {t: c for t, c in tag_freq.items() if c < avg * 0.5} if avg else {}`
(server.py line 230). -/
def under_tags (freq : List (String × Nat)) : List (String × Nat) :=
  if tag_average freq ≠ 0 then
    freq.filter (fun x => (x.2 : ℚ) < tag_average freq * (1 / 2 : ℚ))
  else []

/-! ### Claim-side auxiliary definitions -/

/-- A query token free of the SQL LIKE wildcard characters. -/
def noWild (tok : List Char) : Bool := tok.all (fun c => !(c = '%') && !(c = '_'))

/-- ASCII case folding of a character list (both sides of a default
SQLite LIKE comparison are folded this way). -/
def foldLower (l : List Char) : List Char := l.map Char.toLower

/-! ## Lemma layer 1: the TEXT order -/

theorem lexLtCh_irrefl (a : List Char) : lexLtCh a a = false := by
  induction a with
  | nil => rfl
  | cons c cs ih => simp [lexLtCh, lt_irrefl, ih]

theorem lexLtCh_asymm : ∀ a b : List Char, lexLtCh a b = true → lexLtCh b a = false := by
  intro a
  induction a with
  | nil =>
    intro b h
    cases b with
    | nil => exact absurd h (by simp [lexLtCh])
    | cons d ds => rfl
  | cons c cs ih =>
    intro b h
    cases b with
    | nil => exact absurd h (by simp [lexLtCh])
    | cons d ds =>
      simp only [lexLtCh] at h ⊢
      by_cases hcd : c < d
      · rw [if_pos hcd] at h
        rw [if_neg (lt_asymm hcd), if_pos hcd]
      · rw [if_neg hcd] at h
        by_cases hdc : d < c
        · rw [if_pos hdc] at h
          exact absurd h (by simp)
        · rw [if_neg hdc] at h
          rw [if_neg hdc, if_neg hcd]
          exact ih ds h

theorem lexLtCh_conn : ∀ a b : List Char,
    lexLtCh a b = false → lexLtCh b a = false → a = b := by
  intro a
  induction a with
  | nil =>
    intro b h1 _
    cases b with
    | nil => rfl
    | cons d ds => exact absurd h1 (by simp [lexLtCh])
  | cons c cs ih =>
    intro b h1 h2
    cases b with
    | nil => exact absurd h2 (by simp [lexLtCh])
    | cons d ds =>
      simp only [lexLtCh] at h1 h2
      by_cases hcd : c < d
      · rw [if_pos hcd] at h1; exact absurd h1 (by simp)
      · by_cases hdc : d < c
        · rw [if_pos hdc] at h2; exact absurd h2 (by simp)
        · rw [if_neg hcd, if_neg hdc] at h1
          rw [if_neg hdc, if_neg hcd] at h2
          have hc : c = d := le_antisymm (not_lt.mp hdc) (not_lt.mp hcd)
          rw [hc, ih ds h1 h2]

theorem lexLtCh_trans : ∀ a b c : List Char,
    lexLtCh a b = true → lexLtCh b c = true → lexLtCh a c = true := by
  intro a
  induction a with
  | nil =>
    intro b c h1 h2
    cases b with
    | nil => exact absurd h1 (by simp [lexLtCh])
    | cons y ys =>
      cases c with
      | nil => exact absurd h2 (by simp [lexLtCh])
      | cons z zs => simp [lexLtCh]
  | cons x xs ih =>
    intro b c h1 h2
    cases b with
    | nil => exact absurd h1 (by simp [lexLtCh])
    | cons y ys =>
      cases c with
      | nil => exact absurd h2 (by simp [lexLtCh])
      | cons z zs =>
        simp only [lexLtCh] at h1 h2 ⊢
        by_cases hxy : x < y
        · by_cases hyz : y < z
          · rw [if_pos (lt_trans hxy hyz)]
          · rw [if_neg hyz] at h2
            by_cases hzy : z < y
            · rw [if_pos hzy] at h2; exact absurd h2 (by simp)
            · have hyz' : y = z := le_antisymm (not_lt.mp hzy) (not_lt.mp hyz)
              subst hyz'
              rw [if_pos hxy]
        · rw [if_neg hxy] at h1
          by_cases hyx : y < x
          · rw [if_pos hyx] at h1; exact absurd h1 (by simp)
          · rw [if_neg hyx] at h1
            have hxy' : x = y := le_antisymm (not_lt.mp hyx) (not_lt.mp hxy)
            subst hxy'
            by_cases hxz : x < z
            · rw [if_pos hxz]
            · rw [if_neg hxz] at h2 ⊢
              by_cases hzx : z < x
              · rw [if_pos hzx] at h2; exact absurd h2 (by simp)
              · rw [if_neg hzx] at h2 ⊢
                exact ih ys zs h1 h2

theorem lexLtCh_transNeg (a b c : List Char)
    (h1 : lexLtCh b a = false) (h2 : lexLtCh c b = false) : lexLtCh c a = false := by
  by_cases hca : lexLtCh c a = true
  · exfalso
    by_cases hab : lexLtCh a b = true
    · have hcb := lexLtCh_trans c a b hca hab
      rw [hcb] at h2
      exact absurd h2 (by simp)
    · have hab' : lexLtCh a b = false := Bool.not_eq_true _ ▸ Bool.of_not_eq_true hab
      have hEq : a = b := lexLtCh_conn a b hab' h1
      subst hEq
      rw [hca] at h2
      exact absurd h2 (by simp)
  · exact Bool.not_eq_true _ ▸ Bool.of_not_eq_true hca

theorem strLe_refl (a : String) : strLe a a = true := by
  simp [strLe, lexLtCh_irrefl]

theorem strLe_trans {a b c : String} (h1 : strLe a b = true) (h2 : strLe b c = true) :
    strLe a c = true := by
  simp only [strLe, Bool.not_eq_true'] at h1 h2 ⊢
  exact lexLtCh_transNeg a.data b.data c.data h1 h2

theorem strLe_of_strLt {a b : String} (h : strLt a b = true) : strLe a b = true := by
  simp only [strLt] at h
  simp only [strLe, Bool.not_eq_true']
  exact lexLtCh_asymm _ _ h

theorem strLe_total {a b : String} (h : strLe a b = false) : strLe b a = true := by
  simp only [strLe, Bool.not_eq_false'] at h
  simp only [strLe, Bool.not_eq_true']
  exact lexLtCh_asymm _ _ h

theorem strLt_false_of_strLe {a b : String} (h : strLe a b = true) : strLt b a = false := by
  simp only [strLe, Bool.not_eq_true'] at h
  exact h

theorem strLe_of_strLt_false {a b : String} (h : strLt b a = false) : strLe a b = true := by
  simp only [strLe, Bool.not_eq_true']
  exact h

theorem strLe_strMax_left (a b : String) : strLe a (strMax a b) = true := by
  unfold strMax
  by_cases h : strLe a b = true
  · rw [if_pos h]; exact h
  · rw [if_neg h]; exact strLe_refl a

theorem strLe_strMax_right (a b : String) : strLe b (strMax a b) = true := by
  unfold strMax
  by_cases h : strLe a b = true
  · rw [if_pos h]; exact strLe_refl b
  · rw [if_neg h]
    exact strLe_total (Bool.not_eq_true _ ▸ Bool.of_not_eq_true h)

theorem strMax_cases (a b : String) : strMax a b = a ∨ strMax a b = b := by
  unfold strMax
  by_cases h : strLe a b = true
  · right; rw [if_pos h]
  · left; rw [if_neg h]

/-! ## Lemma layer 2: the stable sort -/

theorem insSorted_perm (lt : α → α → Bool) (x : α) (l : List α) :
    (insSorted lt x l).Perm (x :: l) := by
  induction l with
  | nil => exact List.Perm.refl _
  | cons y ys ih =>
    simp only [insSorted]
    by_cases h : lt y x = true
    · rw [if_pos h]
      exact (ih.cons y).trans (List.Perm.swap x y ys)
    · rw [if_neg h]

theorem sortWith_perm (lt : α → α → Bool) (l : List α) : (sortWith lt l).Perm l := by
  induction l with
  | nil => exact List.Perm.refl _
  | cons x xs ih =>
    exact (insSorted_perm lt x (sortWith lt xs)).trans (ih.cons x)

theorem mem_sortWith (lt : α → α → Bool) (l : List α) (a : α) :
    a ∈ sortWith lt l ↔ a ∈ l :=
  (sortWith_perm lt l).mem_iff

theorem insSorted_pairwise (lt : α → α → Bool)
    (hasym : ∀ a b, lt a b = true → lt b a = false)
    (htrans : ∀ a b c, lt b a = false → lt c b = false → lt c a = false)
    (x : α) (l : List α) (hl : l.Pairwise (fun a b => lt b a = false)) :
    (insSorted lt x l).Pairwise (fun a b => lt b a = false) := by
  induction l with
  | nil => simp [insSorted]
  | cons y ys ih =>
    rcases List.pairwise_cons.mp hl with ⟨hy, hys⟩
    simp only [insSorted]
    by_cases h : lt y x = true
    · rw [if_pos h]
      refine List.pairwise_cons.mpr ⟨?_, ih hys⟩
      intro z hz
      rcases List.mem_cons.mp ((insSorted_perm lt x ys).mem_iff.mp hz) with rfl | hz'
      · exact hasym y z h
      · exact hy z hz'
    · rw [if_neg h]
      refine List.pairwise_cons.mpr ⟨?_, hl⟩
      intro z hz
      rcases List.mem_cons.mp hz with rfl | hz'
      · exact Bool.not_eq_true _ ▸ Bool.of_not_eq_true h
      · exact htrans x y z (Bool.not_eq_true _ ▸ Bool.of_not_eq_true h) (hy z hz')

theorem sortWith_pairwise (lt : α → α → Bool)
    (hasym : ∀ a b, lt a b = true → lt b a = false)
    (htrans : ∀ a b c, lt b a = false → lt c b = false → lt c a = false)
    (l : List α) :
    (sortWith lt l).Pairwise (fun a b => lt b a = false) := by
  induction l with
  | nil => simp [sortWith]
  | cons x xs ih => exact insSorted_pairwise lt hasym htrans x (sortWith lt xs) ih

theorem insSorted_filter_pos (lt : α → α → Bool) (p : α → Bool) (x : α) (l : List α)
    (hpx : p x = true) (hskip : ∀ y ∈ l, p y = true → lt y x = false) :
    (insSorted lt x l).filter p = x :: l.filter p := by
  induction l with
  | nil => simp [insSorted, hpx]
  | cons y ys ih =>
    simp only [insSorted]
    by_cases h : lt y x = true
    · rw [if_pos h]
      have hpy : p y = false := by
        by_contra hpy'
        have := hskip y (List.mem_cons_self y ys) (Bool.not_eq_false _ ▸ hpy')
        rw [this] at h
        exact Bool.false_ne_true h
      rw [List.filter_cons_of_neg (by simp [hpy]), List.filter_cons_of_neg (by simp [hpy])]
      exact ih (fun z hz hpz => hskip z (List.mem_cons_of_mem y hz) hpz)
    · rw [if_neg h]
      rw [List.filter_cons_of_pos (by simp [hpx])]

theorem insSorted_filter_neg (lt : α → α → Bool) (p : α → Bool) (x : α) (l : List α)
    (hpx : p x = false) :
    (insSorted lt x l).filter p = l.filter p := by
  induction l with
  | nil => simp [insSorted, hpx]
  | cons y ys ih =>
    simp only [insSorted]
    by_cases h : lt y x = true
    · rw [if_pos h]
      by_cases hpy : p y = true
      · rw [List.filter_cons_of_pos (by simp [hpy]), List.filter_cons_of_pos (by simp [hpy]), ih]
      · have hpy' : p y = false := Bool.not_eq_true _ ▸ Bool.of_not_eq_true hpy
        rw [List.filter_cons_of_neg (by simp [hpy']), List.filter_cons_of_neg (by simp [hpy']), ih]
    · rw [if_neg h]
      rw [List.filter_cons_of_neg (by simp [hpx])]

theorem sortWith_filter_eq (lt : α → α → Bool) (p : α → Bool)
    (hcomp : ∀ a b, p a = true → p b = true → lt a b = false) (l : List α) :
    (sortWith lt l).filter p = l.filter p := by
  induction l with
  | nil => rfl
  | cons x xs ih =>
    simp only [sortWith]
    by_cases hx : p x = true
    · rw [insSorted_filter_pos lt p x (sortWith lt xs) hx
        (fun y _ hpy => hcomp y x hpy hx), ih,
        List.filter_cons_of_pos (by simp [hx])]
    · have hx' : p x = false := Bool.not_eq_true _ ▸ Bool.of_not_eq_true hx
      rw [insSorted_filter_neg lt p x (sortWith lt xs) hx', ih,
        List.filter_cons_of_neg (by simp [hx'])]

/-! ## Lemma layer 3: the insertion-ordered dict -/

theorem dictGet_cons (a : String) (v : Nat) (d : List (String × Nat)) (k : String) :
    dictGet ((a, v) :: d) k = if a = k then some v else dictGet d k := by
  by_cases h : a = k
  · simp [dictGet, List.find?_cons, h]
  · simp [dictGet, List.find?_cons, h]

theorem dictGetD_cons (a : String) (v : Nat) (d : List (String × Nat)) (k : String) :
    dictGetD ((a, v) :: d) k = if a = k then v else dictGetD d k := by
  unfold dictGetD
  rw [dictGet_cons]
  by_cases h : a = k
  · simp [h]
  · simp [h]

theorem dictGetD_incr (d : List (String × Nat)) (k k' : String) :
    dictGetD (dictIncr d k) k' = dictGetD d k' + (if k = k' then 1 else 0) := by
  induction d with
  | nil =>
    simp only [dictIncr]
    rw [dictGetD_cons]
    by_cases h : k = k'
    · simp [h, dictGetD, dictGet]
    · simp [h, dictGetD, dictGet]
  | cons kv rest ih =>
    obtain ⟨a, v⟩ := kv
    simp only [dictIncr]
    by_cases ha : a = k
    · rw [if_pos ha]
      rw [dictGetD_cons, dictGetD_cons]
      by_cases h' : a = k'
      · have : k = k' := ha ▸ h'
        simp [h', this]
      · have : ¬ k = k' := fun hkk => h' (ha.symm ▸ hkk ▸ rfl)
        simp [h', this]
    · rw [if_neg ha]
      rw [dictGetD_cons, dictGetD_cons, ih]
      by_cases h' : a = k'
      · have hkk : ¬ k = k' := fun hc => ha (h'.trans hc.symm)
        simp [h', hkk]
      · simp [h']

/-- Keys of the dict model, in insertion order. -/
def dictKeys (d : List (String × Nat)) : List String := d.map Prod.fst

theorem dictKeys_incr (d : List (String × Nat)) (k : String) :
    dictKeys (dictIncr d k) = if k ∈ dictKeys d then dictKeys d else dictKeys d ++ [k] := by
  induction d with
  | nil => simp [dictIncr, dictKeys]
  | cons kv rest ih =>
    obtain ⟨a, v⟩ := kv
    simp only [dictIncr]
    by_cases ha : a = k
    · rw [if_pos ha]
      have : k ∈ dictKeys ((a, v) :: rest) := by simp [dictKeys, ha.symm]
      simp [dictKeys, this, ha]
    · rw [if_neg ha]
      have hk : (k ∈ dictKeys ((a, v) :: rest)) ↔ (k ∈ dictKeys rest) := by
        simp [dictKeys]
        intro h
        exact absurd h.symm ha
      by_cases hmem : k ∈ dictKeys rest
      · have := ih
        rw [if_pos hmem] at this
        simp only [dictKeys, List.map_cons] at *
        rw [if_pos (hk.mpr hmem)]
        simp [this]
      · have := ih
        rw [if_neg hmem] at this
        simp only [dictKeys, List.map_cons] at *
        rw [if_neg (fun hc => hmem (hk.mp hc))]
        simp [this]

theorem dictIncr_keysNodup (d : List (String × Nat)) (k : String)
    (h : (dictKeys d).Nodup) : (dictKeys (dictIncr d k)).Nodup := by
  rw [dictKeys_incr]
  by_cases hmem : k ∈ dictKeys d
  · rw [if_pos hmem]; exact h
  · rw [if_neg hmem]
    rw [List.nodup_append]
    exact ⟨h, List.nodup_singleton k, by simp [List.disjoint_singleton, hmem]⟩

theorem dict_mem_iff (d : List (String × Nat)) (hnd : (dictKeys d).Nodup)
    (k : String) (v : Nat) : (k, v) ∈ d ↔ dictGet d k = some v := by
  induction d with
  | nil => simp [dictGet, List.find?]
  | cons kv rest ih =>
    obtain ⟨a, w⟩ := kv
    rw [dictGet_cons]
    simp only [dictKeys, List.map_cons, List.nodup_cons] at hnd
    obtain ⟨hna, hnrest⟩ := hnd
    constructor
    · intro hmem
      rcases List.mem_cons.mp hmem with heq | hmem'
      · obtain ⟨h1, h2⟩ := Prod.mk.injEq .. ▸ heq
        simp_all
      · have hk : k ∈ dictKeys rest := by
          simp [dictKeys]
          exact ⟨v, hmem'⟩
        have ha : ¬ a = k := fun hc => hna (hc ▸ hk)
        rw [if_neg ha]
        exact (ih hnrest).mp hmem'
    · intro hget
      by_cases ha : a = k
      · rw [if_pos ha] at hget
        obtain rfl := Option.some.injEq .. ▸ hget
        subst ha
        exact List.mem_cons_self _ _
      · rw [if_neg ha] at hget
        exact List.mem_cons_of_mem _ ((ih hnrest).mpr hget)

theorem dictIncr_values_pos (d : List (String × Nat)) (k : String)
    (h : ∀ kv ∈ d, 1 ≤ kv.2) : ∀ kv ∈ dictIncr d k, 1 ≤ kv.2 := by
  induction d with
  | nil =>
    intro kv hkv
    simp only [dictIncr] at hkv
    rcases List.mem_singleton.mp hkv with rfl
    exact le_refl 1
  | cons kv0 rest ih =>
    obtain ⟨a, v⟩ := kv0
    intro kv hkv
    simp only [dictIncr] at hkv
    by_cases ha : a = k
    · rw [if_pos ha] at hkv
      rcases List.mem_cons.mp hkv with rfl | hm
      · simp
      · exact h kv (List.mem_cons_of_mem _ hm)
    · rw [if_neg ha] at hkv
      rcases List.mem_cons.mp hkv with heq | hm
      · rw [heq]; exact h (a, v) (List.mem_cons_self _ _)
      · exact ih (fun kv2 h2 => h kv2 (List.mem_cons_of_mem _ h2)) kv hm

theorem dictGet_eq_some_iff (d : List (String × Nat)) (hpos : ∀ kv ∈ d, 1 ≤ kv.2)
    (k : String) (c : Nat) : dictGet d k = some c ↔ (dictGetD d k = c ∧ 1 ≤ c) := by
  constructor
  · intro h
    refine ⟨by simp [dictGetD, h], ?_⟩
    unfold dictGet at h
    cases hf : List.find? (fun kv => kv.1 = k) d with
    | none => rw [hf] at h; exact absurd h (by simp)
    | some kv =>
      rw [hf] at h
      obtain rfl : kv.2 = c := by simpa using h
      exact hpos kv (List.mem_of_find?_eq_some hf)
  · rintro ⟨hgd, hc⟩
    cases hf : dictGet d k with
    | none =>
      exfalso
      have : dictGetD d k = 0 := by simp [dictGetD, hf]
      omega
    | some v =>
      have : dictGetD d k = v := by simp [dictGetD, hf]
      rw [hgd] at this
      rw [this]

/-- A fold preserves any invariant its step preserves. -/
theorem foldl_preserve {β : Type} {γ : Type} (step : γ → β → γ) (P : γ → Prop)
    (hstep : ∀ d b, P d → P (step d b)) : ∀ (l : List β) (d : γ), P d → P (l.foldl step d) := by
  intro l
  induction l with
  | nil => intro d h; exact h
  | cons b bs ih => intro d h; exact ih (step d b) (hstep d b h)

/-! ## Lemma layer 4: counting folds -/

theorem strMk_eq_iff (t : List Char) (k : String) : (String.mk t = k) ↔ t = k.data := by
  cases k with | mk kd =>
  constructor
  · intro h; exact congrArg String.data h
  · intro h; rw [h]

theorem adhoc_foldl_getD (meals : List MealRecord) (t : String) : ∀ d,
    dictGetD (meals.foldl
      (fun d m => if m.recipe_id.isNone && m.status = "cooked" then dictIncr d m.title else d)
      d) t
    = dictGetD d t +
      (meals.filter
        (fun m => m.recipe_id.isNone && m.status = "cooked" && m.title = t)).length := by
  induction meals with
  | nil => intro d; simp
  | cons m ms ih =>
    intro d
    rw [List.foldl_cons]
    by_cases h1 : (m.recipe_id.isNone && decide (m.status = "cooked")) = true
    · rw [if_pos h1, ih, dictGetD_incr]
      simp only [Bool.and_eq_true, Option.isNone_iff_eq_none, decide_eq_true_eq] at h1
      by_cases h2 : m.title = t
      · rw [List.filter_cons_of_pos (by simp [h1.1, h1.2, h2])]
        simp [h2]
        omega
      · rw [List.filter_cons_of_neg (by simp [h2])]
        simp [h2]
    · rw [if_neg h1, ih]
      have h1f : (m.recipe_id.isNone && decide (m.status = "cooked")) = false :=
        Bool.not_eq_true _ ▸ Bool.of_not_eq_true h1
      rw [List.filter_cons_of_neg (by simp [h1f])]

theorem adhocCounts_getD (meals : List MealRecord) (t : String) :
    dictGetD (adhocCounts meals) t =
      (meals.filter
        (fun m => m.recipe_id.isNone && m.status = "cooked" && m.title = t)).length := by
  unfold adhocCounts
  rw [adhoc_foldl_getD]
  simp [dictGetD, dictGet, List.find?]

theorem adhocCounts_keysNodup (meals : List MealRecord) :
    (dictKeys (adhocCounts meals)).Nodup := by
  unfold adhocCounts
  refine foldl_preserve _ (fun d => (dictKeys d).Nodup) ?_ meals [] (by simp [dictKeys])
  intro d m hd
  by_cases h : (m.recipe_id.isNone && decide (m.status = "cooked")) = true
  · rw [if_pos h]; exact dictIncr_keysNodup d m.title hd
  · rw [if_neg h]; exact hd

theorem adhocCounts_values_pos (meals : List MealRecord) :
    ∀ kv ∈ adhocCounts meals, 1 ≤ kv.2 := by
  unfold adhocCounts
  refine foldl_preserve _ (fun d : List (String × Nat) => ∀ kv ∈ d, 1 ≤ kv.2) ?_ meals [] (by simp)
  intro d m hd
  by_cases h : (m.recipe_id.isNone && decide (m.status = "cooked")) = true
  · rw [if_pos h]; exact dictIncr_values_pos d m.title hd
  · rw [if_neg h]; exact hd

theorem tokens_foldl_getD (toks : List (List Char)) (k : String) (hk : ¬ k.data = []) : ∀ d,
    dictGetD (toks.foldl
      (fun d tok =>
        if (trimCh tok).isEmpty then d else dictIncr d (String.mk (trimCh tok))) d) k
    = dictGetD d k + (toks.map trimCh).count k.data := by
  induction toks with
  | nil => intro d; simp
  | cons tok toks' ih =>
    intro d
    rw [List.foldl_cons, List.map_cons, List.count_cons]
    by_cases he : (trimCh tok).isEmpty = true
    · rw [if_pos he, ih]
      have : ¬ trimCh tok = k.data := by
        rw [List.isEmpty_iff.mp he]
        exact fun hc => hk hc.symm
      simp [this]
    · rw [if_neg he, ih, dictGetD_incr]
      by_cases h2 : trimCh tok = k.data
      · have : String.mk (trimCh tok) = k := (strMk_eq_iff _ _).mpr h2
        simp [this, h2]
        omega
      · have : ¬ String.mk (trimCh tok) = k := fun hc => h2 ((strMk_eq_iff _ _).mp hc)
        simp [this, h2]

theorem addTags_getD (d : List (String × Nat)) (s : String) (k : String)
    (hk : ¬ k.data = []) :
    dictGetD (addTags d s) k = dictGetD d k + ((splitComma s).map trimCh).count k.data := by
  unfold addTags
  exact tokens_foldl_getD (splitComma s) k hk d

theorem addTags_keysNodup (d : List (String × Nat)) (s : String)
    (h : (dictKeys d).Nodup) : (dictKeys (addTags d s)).Nodup := by
  unfold addTags
  refine foldl_preserve _ (fun d => (dictKeys d).Nodup) ?_ (splitComma s) d h
  intro d tok hd
  by_cases he : (trimCh tok).isEmpty = true
  · rw [if_pos he]; exact hd
  · rw [if_neg he]; exact dictIncr_keysNodup d _ hd

theorem addTags_values_pos (d : List (String × Nat)) (s : String)
    (h : ∀ kv ∈ d, 1 ≤ kv.2) : ∀ kv ∈ addTags d s, 1 ≤ kv.2 := by
  unfold addTags
  refine foldl_preserve _ (fun d : List (String × Nat) => ∀ kv ∈ d, 1 ≤ kv.2) ?_ (splitComma s) d h
  intro d tok hd
  by_cases he : (trimCh tok).isEmpty = true
  · rw [if_pos he]; exact hd
  · rw [if_neg he]; exact dictIncr_values_pos d _ hd

theorem tagfreq_foldl_getD (rs : List MealRecord) (k : String) (hk : ¬ k.data = []) : ∀ d,
    dictGetD (rs.foldl (fun d r => addTags d (r.tags.getD "")) d) k
    = dictGetD d k +
      (rs.map (fun r => ((splitComma (r.tags.getD "")).map trimCh).count k.data)).sum := by
  induction rs with
  | nil => intro d; simp
  | cons r rs' ih =>
    intro d
    rw [List.foldl_cons, ih, addTags_getD d _ k hk, List.map_cons, List.sum_cons]
    omega

theorem get_tag_frequency_getD (cutoff : String) (rows : List MealRecord) (k : String)
    (hk : ¬ k.data = []) :
    dictGetD (get_tag_frequency cutoff rows) k = tagOccCount cutoff k rows := by
  unfold get_tag_frequency tagOccCount
  rw [tagfreq_foldl_getD _ k hk]
  simp [dictGetD, dictGet, List.find?]

theorem get_tag_frequency_keysNodup (cutoff : String) (rows : List MealRecord) :
    (dictKeys (get_tag_frequency cutoff rows)).Nodup := by
  unfold get_tag_frequency
  refine foldl_preserve _ (fun d => (dictKeys d).Nodup) ?_ _ [] (by simp [dictKeys])
  intro d r hd
  exact addTags_keysNodup d _ hd

theorem get_tag_frequency_values_pos (cutoff : String) (rows : List MealRecord) :
    ∀ kv ∈ get_tag_frequency cutoff rows, 1 ≤ kv.2 := by
  unfold get_tag_frequency
  refine foldl_preserve _ (fun d : List (String × Nat) => ∀ kv ∈ d, 1 ≤ kv.2) ?_ _ [] (by simp)
  intro d r hd
  exact addTags_values_pos d _ hd

/-! ## Lemma layer 5: LIKE patterns and query membership -/

theorem suffixesCh_foldLower (l : List Char) :
    suffixesCh (foldLower l) = (suffixesCh l).map foldLower := by
  induction l with
  | nil => simp [suffixesCh, foldLower]
  | cons c cs ih =>
    simp only [foldLower, List.map_cons, suffixesCh] at ih ⊢
    rw [ih]

theorem likeMatch_nil_any (s : List Char) :
    (suffixesCh s).any (fun t => likeMatch [] t) = true := by
  induction s with
  | nil => simp [suffixesCh, likeMatch, List.isEmpty]
  | cons c cs ih => simp [suffixesCh, List.any_cons, ih]

theorem likeMatch_lit (tok : List Char) (hw : noWild tok = true) : ∀ s,
    likeMatch (tok ++ ['%']) s = leadsWith (foldLower tok) (foldLower s) := by
  induction tok with
  | nil =>
    intro s
    simp only [List.nil_append]
    have h1 : likeMatch ['%'] s = (suffixesCh s).any (fun t => likeMatch [] t) := by
      simp [likeMatch]
    rw [h1, likeMatch_nil_any]
    simp [leadsWith, foldLower]
  | cons c cs ih =>
    intro s
    have hcs : noWild cs = true := by
      simp only [noWild, List.all_cons, Bool.and_eq_true] at hw
      exact hw.2
    have hc : ¬ c = '%' ∧ ¬ c = '_' := by
      simp only [noWild, List.all_cons, Bool.and_eq_true, Bool.not_eq_true',
        decide_eq_false_iff_not] at hw
      exact hw.1
    cases s with
    | nil =>
      simp only [List.cons_append]
      simp [likeMatch, hc.1, foldLower, leadsWith]
    | cons d ds =>
      simp only [List.cons_append]
      have h1 : likeMatch (c :: (cs ++ ['%'])) (d :: ds) =
          ((decide (c.toLower = d.toLower)) && likeMatch (cs ++ ['%']) ds) := by
        simp [likeMatch, hc.1, hc.2]
      rw [h1, ih hcs ds]
      simp [foldLower, leadsWith]

theorem likeMatch_full (tok : List Char) (hw : noWild tok = true) (s : List Char) :
    likeMatch ('%' :: (tok ++ ['%'])) s = occursIn (foldLower tok) (foldLower s) := by
  unfold occursIn
  rw [suffixesCh_foldLower, List.any_map]
  have h1 : likeMatch ('%' :: (tok ++ ['%'])) s =
      (suffixesCh s).any (fun t => likeMatch (tok ++ ['%']) t) := by
    simp [likeMatch]
  rw [h1]
  have h2 : (fun t => likeMatch (tok ++ ['%']) t) =
      ((fun t => leadsWith (foldLower tok) t) ∘ foldLower) := by
    funext t
    simp only [Function.comp]
    exact likeMatch_lit tok hw t
  rw [h2]

theorem tagLike_iff (tok : List Char) (r : MealRecord) (hw : noWild (trimCh tok) = true) :
    tagLike tok r = true ↔
      ∃ t, r.tags = some t ∧ occursIn (foldLower (trimCh tok)) (foldLower t.data) = true := by
  unfold tagLike
  cases htags : r.tags with
  | none => simp
  | some t =>
    have hred : (match some t with
        | none => false
        | some t => likeMatch ('%' :: (trimCh tok ++ ['%'])) t.data) =
        likeMatch ('%' :: (trimCh tok ++ ['%'])) t.data := rfl
    rw [hred, likeMatch_full _ hw]
    simp

theorem splitCommaAux_ne_nil (l : List Char) : ∀ acc, splitCommaAux acc l ≠ [] := by
  induction l with
  | nil => intro acc; simp [splitCommaAux]
  | cons c cs ih =>
    intro acc
    simp only [splitCommaAux]
    by_cases h : c = ','
    · simp [h]
    · simp only [if_neg h]
      exact ih (c :: acc)

theorem splitComma_ne_nil (s : String) : splitComma s ≠ [] :=
  splitCommaAux_ne_nil s.data []

theorem pyTruthy_some {q : String} (hq : q ≠ "") : pyTruthy (some q) = true := by
  unfold pyTruthy
  cases q with | mk l =>
  cases l with
  | nil => exact absurd rfl hq
  | cons c cs => simp [List.isEmpty]

theorem mem_get_meals (sd ed st tg : Option String) (rows : List MealRecord)
    (r : MealRecord) :
    r ∈ get_meals sd ed st tg rows ↔ (r ∈ rows ∧ mealMatches sd ed st tg r = true) := by
  unfold get_meals
  rw [mem_sortWith]
  exact List.mem_filter

/-! ## Lemma layer 6: update lookups, MAX folds, key dedup -/

theorem applyFields_id (u : UpdateFields) (now : String) (r : MealRecord) :
    (applyFields u now r).id = r.id := rfl

theorem findMeal_map_update (meal_id : Nat) (u : UpdateFields) (now : String)
    (rows : List MealRecord) :
    findMeal meal_id (rows.map (fun r => if r.id = meal_id then applyFields u now r else r))
      = (findMeal meal_id rows).map (applyFields u now) := by
  induction rows with
  | nil => rfl
  | cons r rs ih =>
    simp only [List.map_cons]
    unfold findMeal at ih ⊢
    by_cases h : r.id = meal_id
    · rw [if_pos h]
      have h2 : (applyFields u now r).id = meal_id := by rw [applyFields_id]; exact h
      rw [List.find?_cons_of_pos _ (by simp [h2]), List.find?_cons_of_pos _ (by simp [h])]
      rfl
    · rw [if_neg h]
      rw [List.find?_cons_of_neg _ (by simp [h]), List.find?_cons_of_neg _ (by simp [h])]
      exact ih

theorem foldl_strMax_init (l : List String) : ∀ d, strLe d (l.foldl strMax d) = true := by
  induction l with
  | nil => intro d; exact strLe_refl d
  | cons c cs ih =>
    intro d
    rw [List.foldl_cons]
    exact strLe_trans (strLe_strMax_left d c) (ih (strMax d c))

theorem foldl_strMax_le (l : List String) : ∀ d x, x ∈ l →
    strLe x (l.foldl strMax d) = true := by
  induction l with
  | nil => intro d x hx; exact absurd hx (List.not_mem_nil x)
  | cons c cs ih =>
    intro d x hx
    rw [List.foldl_cons]
    rcases List.mem_cons.mp hx with rfl | hx'
    · exact strLe_trans (strLe_strMax_right d x) (foldl_strMax_init cs (strMax d x))
    · exact ih (strMax d c) x hx'

theorem foldl_strMax_mem (l : List String) : ∀ d,
    l.foldl strMax d = d ∨ l.foldl strMax d ∈ l := by
  induction l with
  | nil => intro d; left; rfl
  | cons c cs ih =>
    intro d
    rw [List.foldl_cons]
    rcases ih (strMax d c) with h | h
    · rcases strMax_cases d c with h2 | h2
      · left; rw [h, h2]
      · right; rw [h, h2]; exact List.mem_cons_self c cs
    · right; exact List.mem_cons_of_mem c h

theorem mem_dedupKeys (l : List (Int ⊕ String)) (k : Int ⊕ String) :
    k ∈ dedupKeys l ↔ k ∈ l := by
  induction l with
  | nil => simp [dedupKeys]
  | cons k0 ks ih =>
    simp only [dedupKeys, List.mem_cons]
    constructor
    · rintro (rfl | hk)
      · left; rfl
      · right; exact ih.mp (List.mem_filter.mp hk).1
    · rintro (rfl | hk)
      · left; rfl
      · by_cases he : k = k0
        · left; exact he
        · right
          exact List.mem_filter.mpr ⟨ih.mpr hk, by simp [he]⟩

theorem dedupKeys_nodup (l : List (Int ⊕ String)) : (dedupKeys l).Nodup := by
  induction l with
  | nil => simp [dedupKeys]
  | cons k0 ks ih =>
    simp only [dedupKeys]
    rw [List.nodup_cons]
    constructor
    · intro hc
      have := (List.mem_filter.mp hc).2
      simp at this
    · exact ih.filter _

/-! ## Claim theorems -/

/-- C1: the claim says a ledger record is appended exactly when the external
calendar call reports success.  In the code this can never happen: the call
site server.py line 90 passes the keyword argument `recipe_id`, which
`calendar.schedule_meal` (calendar.py line 74) does not accept, so every
invocation of the schedule operation raises `TypeError` before the calendar
is contacted and before any ledger write; the write-after-success logic on
lines 91-97 is unreachable.  This theorem evaluates the embedded code: for
every input (including a successful calendar oracle) the operation fails
with the `TypeError` and no ledger record is created. -/
theorem C1_schedule_always_raises (recipe_name date time : String)
    (searchResults : List Recipe) (calSuccess : Bool) (now : String)
    (rows : List MealRecord) :
    schedule_meal recipe_name date time searchResults calSuccess now rows =
      .error (.typeError "schedule_meal() got an unexpected keyword argument recipe_id") := by
  unfold schedule_meal
  rfl

/-- C10: whenever `get_meals` is called with a non-empty `tags` argument,
every comma token contributes a `tags LIKE ?` condition, and a NULL tags
column satisfies no LIKE pattern — even the match-everything pattern of an
empty token — so no record with NULL tags is ever returned. -/
theorem C10_tag_filter_excludes_null_tags (sd ed st : Option String) (q : String)
    (hq : q ≠ "") (rows : List MealRecord) :
    ∀ r ∈ get_meals sd ed st (some q) rows, r.tags ≠ none := by
  intro r hr
  have hm := ((mem_get_meals sd ed st (some q) rows r).mp hr).2
  unfold mealMatches at hm
  rw [pyTruthy_some hq] at hm
  simp only [if_true, Bool.and_eq_true] at hm
  have htags := hm.2
  obtain ⟨tok, htok⟩ : ∃ tok, tok ∈ splitComma ((some q).getD "") := by
    cases hsc : splitComma ((some q).getD "") with
    | nil =>
      exfalso
      have : splitComma q = [] := by simpa using hsc
      exact splitComma_ne_nil q this
    | cons a l => exact ⟨a, hsc ▸ List.mem_cons_self a l⟩
  have hlike := List.all_eq_true.mp htags tok htok
  unfold tagLike at hlike
  cases ht : r.tags with
  | none => rw [ht] at hlike; exact absurd hlike (by simp)
  | some t => simp [ht]

/-- C10 witness: instantiation at a one-row store with a non-empty tags
query. -/
theorem C10_witness :
    ({ id := 1, date := "2025-01-01", title := "A", recipe_id := none,
       tags := some "xy", status := "cooked", portions := none, notes := none,
       created_at := "t", updated_at := "t" } : MealRecord).tags ≠ none :=
  C10_tag_filter_excludes_null_tags none none none "x" (by decide)
    [{ id := 1, date := "2025-01-01", title := "A", recipe_id := none,
       tags := some "xy", status := "cooked", portions := none, notes := none,
       created_at := "t", updated_at := "t" }]
    { id := 1, date := "2025-01-01", title := "A", recipe_id := none,
      tags := some "xy", status := "cooked", portions := none, notes := none,
      created_at := "t", updated_at := "t" }
    (by decide)

/-- C8: an update carrying no present, non-null whitelisted field is a pure
lookup: it returns the stored record and leaves the table (including
`updated_at`) untouched, and raises the not-found error when the id is
unknown; an unknown id also raises on the field-applying path. -/
theorem C8_update_noop_and_not_found (meal_id : Nat) (u : UpdateFields) (now : String)
    (rows : List MealRecord) :
    (u.isEmpty = true →
      update_meal meal_id u now rows =
        (match findMeal meal_id rows with
         | none => .error (.notFound meal_id)
         | some r => .ok (r, rows))) ∧
    (findMeal meal_id rows = none →
      update_meal meal_id u now rows = .error (.notFound meal_id)) := by
  constructor
  · intro he
    unfold update_meal
    rw [if_pos he]
  · intro hfind
    unfold update_meal
    by_cases he : u.isEmpty = true
    · rw [if_pos he, hfind]
    · rw [if_neg he]
      have hmap : findMeal meal_id
          (rows.map (fun r => if r.id = meal_id then applyFields u now r else r)) = none := by
        rw [findMeal_map_update, hfind]
        rfl
      simp only [hmap]

/-- C8 witness: the no-op path returns the record unchanged on a one-row
store and raises on an unknown id, on both paths. -/
theorem C8_witness :
    (update_meal 1 {} "t2"
        [{ id := 1, date := "2025-01-01", title := "A", recipe_id := none,
           tags := none, status := "cooked", portions := none, notes := none,
           created_at := "t", updated_at := "t" }] =
      .ok ({ id := 1, date := "2025-01-01", title := "A", recipe_id := none,
             tags := none, status := "cooked", portions := none, notes := none,
             created_at := "t", updated_at := "t" },
           [{ id := 1, date := "2025-01-01", title := "A", recipe_id := none,
              tags := none, status := "cooked", portions := none, notes := none,
              created_at := "t", updated_at := "t" }])) ∧
    (update_meal 9 {} "t2" [] = .error (.notFound 9)) ∧
    (update_meal 9 { status := some "cooked" } "t2" [] = .error (.notFound 9)) := by
  refine ⟨?_, ?_, ?_⟩
  · exact (C8_update_noop_and_not_found 1 {} "t2"
      [{ id := 1, date := "2025-01-01", title := "A", recipe_id := none,
         tags := none, status := "cooked", portions := none, notes := none,
         created_at := "t", updated_at := "t" }]).1 (by decide)
  · exact (C8_update_noop_and_not_found 9 {} "t2" []).2 rfl
  · exact (C8_update_noop_and_not_found 9 { status := some "cooked" } "t2" []).2 rfl

/-- C9: an update with at least one present, non-null whitelisted field
rewrites exactly the supplied fields on the addressed record, leaves `id`,
`created_at` and every absent-or-null field unchanged, leaves every other
record in place, and sets `updated_at := now`, which is ≥ the previous
value whenever the clock did not run backwards between the two writes. -/
theorem C9_update_applies_fields (meal_id : Nat) (u : UpdateFields) (now : String)
    (rows : List MealRecord) (r : MealRecord)
    (hfind : findMeal meal_id rows = some r) (hne : u.isEmpty = false) :
    update_meal meal_id u now rows =
      .ok (applyFields u now r,
           rows.map (fun x => if x.id = meal_id then applyFields u now x else x)) ∧
    (∀ x ∈ rows, x.id ≠ meal_id →
      x ∈ rows.map (fun x => if x.id = meal_id then applyFields u now x else x)) ∧
    (applyFields u now r).id = r.id ∧
    (applyFields u now r).created_at = r.created_at ∧
    (applyFields u now r).date = u.date.getD r.date ∧
    (applyFields u now r).title = u.title.getD r.title ∧
    (applyFields u now r).recipe_id = (u.recipe_id.map some).getD r.recipe_id ∧
    (applyFields u now r).tags = (u.tags.map some).getD r.tags ∧
    (applyFields u now r).status = u.status.getD r.status ∧
    (applyFields u now r).portions = (u.portions.map some).getD r.portions ∧
    (applyFields u now r).notes = (u.notes.map some).getD r.notes ∧
    (applyFields u now r).updated_at = now ∧
    (strLe r.updated_at now = true →
      strLe r.updated_at (applyFields u now r).updated_at = true) := by
  refine ⟨?_, ?_, rfl, rfl, rfl, rfl, rfl, rfl, rfl, rfl, rfl, rfl, fun h => h⟩
  · unfold update_meal
    rw [if_neg (by rw [hne]; exact Bool.false_ne_true)]
    have hmap : findMeal meal_id
        (rows.map (fun x => if x.id = meal_id then applyFields u now x else x)) =
        some (applyFields u now r) := by
      rw [findMeal_map_update, hfind]
      rfl
    simp only [hmap]
  · intro x hx hxid
    have : (if x.id = meal_id then applyFields u now x else x) = x := if_neg hxid
    rw [← this]
    exact List.mem_map_of_mem _ hx

/-- C9 witness: a status-only update on a one-row store. -/
theorem C9_witness :
    update_meal 1 { status := some "skipped" } "t2"
      [{ id := 1, date := "2025-01-01", title := "A", recipe_id := none,
         tags := none, status := "cooked", portions := none, notes := none,
         created_at := "t", updated_at := "t" }] =
    .ok (applyFields { status := some "skipped" } "t2"
           { id := 1, date := "2025-01-01", title := "A", recipe_id := none,
             tags := none, status := "cooked", portions := none, notes := none,
             created_at := "t", updated_at := "t" },
         [{ id := 1, date := "2025-01-01", title := "A", recipe_id := none,
            tags := none, status := "cooked", portions := none, notes := none,
            created_at := "t", updated_at := "t" }].map
           (fun x => if x.id = 1 then applyFields { status := some "skipped" } "t2" x else x)) :=
  (C9_update_applies_fields 1 { status := some "skipped" } "t2"
    [{ id := 1, date := "2025-01-01", title := "A", recipe_id := none,
       tags := none, status := "cooked", portions := none, notes := none,
       created_at := "t", updated_at := "t" }]
    { id := 1, date := "2025-01-01", title := "A", recipe_id := none,
      tags := none, status := "cooked", portions := none, notes := none,
      created_at := "t", updated_at := "t" }
    rfl rfl).1

/-- C3 counterexample: the claim says an out-of-enum status is rejected with
a validation error before any write; the code validates nothing.  Logging a
meal with status "brunch" persists a row whose status is "brunch", which is
none of planned/cooked/skipped. -/
theorem C3_counterexample :
    ((log_meal "2025-01-01" "Brunch" none none "brunch" none none "t0" []).1.status
        = "brunch") ∧
    ((log_meal "2025-01-01" "Brunch" none none "brunch" none none "t0" []).1 ∈
        (log_meal "2025-01-01" "Brunch" none none "brunch" none none "t0" []).2) ∧
    ¬ ((log_meal "2025-01-01" "Brunch" none none "brunch" none none "t0" []).1.status
          = "planned" ∨
       (log_meal "2025-01-01" "Brunch" none none "brunch" none none "t0" []).1.status
          = "cooked" ∨
       (log_meal "2025-01-01" "Brunch" none none "brunch" none none "t0" []).1.status
          = "skipped") := by
  refine ⟨rfl, by decide, by decide⟩

/-- C3 amended: the store performs no status validation.  `log_meal`
persists whatever status string is supplied and appends exactly one row;
`update_meal` with a present status field persists that status verbatim.
No validation error exists on either path. -/
theorem C3_amended_no_status_validation (d t : String) (rid : Option Int)
    (tg : Option String) (s : String) (p : Option Int) (n : Option String)
    (now : String) (rows : List MealRecord) :
    ((log_meal d t rid tg s p n now rows).1.status = s ∧
     (log_meal d t rid tg s p n now rows).2 =
       rows ++ [(log_meal d t rid tg s p n now rows).1]) ∧
    (∀ meal_id u r, findMeal meal_id rows = some r → u.status = some s →
      update_meal meal_id u now rows =
        .ok (applyFields u now r,
             rows.map (fun x => if x.id = meal_id then applyFields u now x else x)) ∧
      (applyFields u now r).status = s) := by
  refine ⟨⟨rfl, rfl⟩, ?_⟩
  intro meal_id u r hfind hstat
  have hne : u.isEmpty = false := by
    unfold UpdateFields.isEmpty
    rw [hstat]
    simp
  refine ⟨(C9_update_applies_fields meal_id u now rows r hfind hne).1, ?_⟩
  show u.status.getD r.status = s
  rw [hstat]
  rfl

/-- C3 witness: a "weird" status is persisted by the logging path and an
"odd" status by the update path. -/
theorem C3_witness :
    (log_meal "2025-01-01" "A" none none "weird" none none "t" []).1.status = "weird" ∧
    (applyFields { status := some "odd" } "t2"
      { id := 1, date := "2025-01-01", title := "A", recipe_id := none,
        tags := none, status := "cooked", portions := none, notes := none,
        created_at := "t", updated_at := "t" }).status = "odd" := by
  constructor
  · exact (C3_amended_no_status_validation "2025-01-01" "A" none none "weird" none none
      "t" []).1.1
  · exact ((C3_amended_no_status_validation "x" "y" none none "odd" none none
      "t2"
      [{ id := 1, date := "2025-01-01", title := "A", recipe_id := none,
         tags := none, status := "cooked", portions := none, notes := none,
         created_at := "t", updated_at := "t" }]).2 1 { status := some "odd" }
      { id := 1, date := "2025-01-01", title := "A", recipe_id := none,
        tags := none, status := "cooked", portions := none, notes := none,
        created_at := "t", updated_at := "t" } rfl rfl).2

/-- C4 counterexample: the claim says a record increments each *distinct*
tag token once; the code increments once per occurrence.  A record with
tags "a,a" inside the window yields count 2 for "a" in the code, while the
claim's distinct-token counting yields 1. -/
theorem C4_counterexample :
    dictGet (get_tag_frequency "2025-01-01"
      [{ id := 1, date := "2025-02-01", title := "A", recipe_id := none,
         tags := some "a,a", status := "cooked", portions := none, notes := none,
         created_at := "t", updated_at := "t" }]) "a" = some 2 ∧
    dictGet (tagFrequencyClaimDistinct "2025-01-01"
      [{ id := 1, date := "2025-02-01", title := "A", recipe_id := none,
         tags := some "a,a", status := "cooked", portions := none, notes := none,
         created_at := "t", updated_at := "t" }]) "a" = some 1 := by
  refine ⟨by decide, by decide⟩

/-- C4 amended: over records with non-null tags and `date >= today - days`,
`get_tag_frequency` counts one increment per *occurrence* of each non-empty
trimmed comma token (a token repeated inside one record counts multiply);
the spec's worked example `[{tags:"a,b"}, {tags:"b,c"}] ↦ {a:1,b:2,c:1}`
holds as stated. -/
theorem C4_amended_occurrence_counting (cutoff : String) (rows : List MealRecord)
    (tag : String) (htag : tag.data ≠ []) :
    dictGetD (get_tag_frequency cutoff rows) tag = tagOccCount cutoff tag rows ∧
    get_tag_frequency "2025-01-01"
      [{ id := 1, date := "2025-02-01", title := "A", recipe_id := none,
         tags := some "a,b", status := "cooked", portions := none, notes := none,
         created_at := "t", updated_at := "t" },
       { id := 2, date := "2025-02-02", title := "B", recipe_id := none,
         tags := some "b,c", status := "cooked", portions := none, notes := none,
         created_at := "t", updated_at := "t" }] = [("a", 1), ("b", 2), ("c", 1)] := by
  refine ⟨get_tag_frequency_getD cutoff rows tag htag, by decide⟩

/-- C4 witness: the occurrence count of "b" over the spec's example rows. -/
theorem C4_witness :
    dictGetD (get_tag_frequency "2025-01-01"
      [{ id := 1, date := "2025-02-01", title := "A", recipe_id := none,
         tags := some "a,b", status := "cooked", portions := none, notes := none,
         created_at := "t", updated_at := "t" },
       { id := 2, date := "2025-02-02", title := "B", recipe_id := none,
         tags := some "b,c", status := "cooked", portions := none, notes := none,
         created_at := "t", updated_at := "t" }]) "b" =
    tagOccCount "2025-01-01" "b"
      [{ id := 1, date := "2025-02-01", title := "A", recipe_id := none,
         tags := some "a,b", status := "cooked", portions := none, notes := none,
         created_at := "t", updated_at := "t" },
       { id := 2, date := "2025-02-02", title := "B", recipe_id := none,
         tags := some "b,c", status := "cooked", portions := none, notes := none,
         created_at := "t", updated_at := "t" }] :=
  (C4_amended_occurrence_counting "2025-01-01"
    [{ id := 1, date := "2025-02-01", title := "A", recipe_id := none,
       tags := some "a,b", status := "cooked", portions := none, notes := none,
       created_at := "t", updated_at := "t" },
     { id := 2, date := "2025-02-02", title := "B", recipe_id := none,
       tags := some "b,c", status := "cooked", portions := none, notes := none,
       created_at := "t", updated_at := "t" }] "b" (by decide)).1

/-- C2 counterexample: the claim characterises the result of a tags query
as the records whose stored tags string contains every trimmed query token
as a substring.  SQL LIKE is ASCII-case-insensitive, so the query "vegan"
returns a record whose stored tags string "Vegan" does not contain the
token "vegan" as a substring — the claimed characterisation excludes a
record the code returns. -/
theorem C2_counterexample :
    get_meals none none none (some "vegan")
      [{ id := 1, date := "2025-01-01", title := "Dinner", recipe_id := none,
         tags := some "Vegan", status := "cooked", portions := none, notes := none,
         created_at := "t", updated_at := "t" }] =
      [{ id := 1, date := "2025-01-01", title := "Dinner", recipe_id := none,
         tags := some "Vegan", status := "cooked", portions := none, notes := none,
         created_at := "t", updated_at := "t" }] ∧
    occursIn "vegan".data "Vegan".data = false := by
  refine ⟨by decide, by decide⟩

/-- C2 amended: for a non-empty tags query whose trimmed comma tokens are
free of LIKE wildcards, `get_meals` returns exactly the records that pass
the other supplied filters and whose stored tags string contains every
trimmed token as a substring *up to ASCII case folding* (intersection of
the per-token conditions, not the union). -/
theorem C2_amended_caseless_and (rows : List MealRecord) (sd ed st : Option String)
    (q : String) (hq : q ≠ "")
    (hw : ∀ tok ∈ splitComma q, noWild (trimCh tok) = true) (r : MealRecord) :
    r ∈ get_meals sd ed st (some q) rows ↔
      (r ∈ rows ∧ mealMatchesBase sd ed st r = true ∧
       ∀ tok ∈ splitComma q, ∃ t, r.tags = some t ∧
         occursIn (foldLower (trimCh tok)) (foldLower t.data) = true) := by
  rw [mem_get_meals]
  constructor
  · rintro ⟨hrows, hm⟩
    unfold mealMatches at hm
    rw [pyTruthy_some hq] at hm
    simp only [if_true, Bool.and_eq_true, Option.getD_some] at hm
    refine ⟨hrows, hm.1, ?_⟩
    intro tok htok
    have := List.all_eq_true.mp hm.2 tok htok
    exact (tagLike_iff tok r (hw tok htok)).mp this
  · rintro ⟨hrows, hbase, htoks⟩
    refine ⟨hrows, ?_⟩
    unfold mealMatches
    rw [pyTruthy_some hq]
    simp only [if_true, Bool.and_eq_true, Option.getD_some]
    refine ⟨hbase, ?_⟩
    apply List.all_eq_true.mpr
    intro tok htok
    exact (tagLike_iff tok r (hw tok htok)).mpr (htoks tok htok)

/-- C2 witness: the case-folded characterisation admits the "Vegan" record
for the query "vegan". -/
theorem C2_witness :
    ({ id := 1, date := "2025-01-01", title := "Dinner", recipe_id := none,
       tags := some "Vegan", status := "cooked", portions := none, notes := none,
       created_at := "t", updated_at := "t" } : MealRecord) ∈
      get_meals none none none (some "vegan")
        [{ id := 1, date := "2025-01-01", title := "Dinner", recipe_id := none,
           tags := some "Vegan", status := "cooked", portions := none, notes := none,
           created_at := "t", updated_at := "t" }] := by
  apply (C2_amended_caseless_and
    [{ id := 1, date := "2025-01-01", title := "Dinner", recipe_id := none,
       tags := some "Vegan", status := "cooked", portions := none, notes := none,
       created_at := "t", updated_at := "t" }]
    none none none "vegan" (by decide) (by decide) _).mpr
  refine ⟨by decide, by decide, ?_⟩
  intro tok htok
  have hs : splitComma "vegan" = ["vegan".data] := by decide
  rw [hs] at htok
  rcases List.mem_singleton.mp htok with rfl
  exact ⟨"Vegan", rfl, by decide⟩

/-- Entrywise the tag-frequency sum dominates the number of entries, since
every stored count is at least 1. -/
theorem sum_cast_ge_length (freq : List (String × Nat)) (hpos : ∀ kv ∈ freq, 1 ≤ kv.2) :
    (freq.length : ℚ) ≤ (freq.map (fun x => (x.2 : ℚ))).sum := by
  induction freq with
  | nil => simp
  | cons kv d ih =>
    simp only [List.map_cons, List.sum_cons, List.length_cons]
    have h1 : 1 ≤ (kv.2 : ℚ) := by exact_mod_cast hpos kv (List.mem_cons_self _ _)
    have h2 := ih (fun kv2 hk => hpos kv2 (List.mem_cons_of_mem _ hk))
    push_cast
    linarith

/-- C7: on an empty tag frequency the average is 0 and both balance maps
are empty with no division attempted; on a non-empty one the average is
sum/len, is strictly positive (so the code's truthiness guard `if avg`
coincides with `average > 0`), and the over/under maps are exactly the
count > avg*1.5 and count < avg*0.5 filters. -/
theorem C7_tag_balance_guard (cutoff : String) (rows : List MealRecord) :
    (get_tag_frequency cutoff rows = [] →
      tag_average (get_tag_frequency cutoff rows) = 0 ∧
      over_tags (get_tag_frequency cutoff rows) = [] ∧
      under_tags (get_tag_frequency cutoff rows) = []) ∧
    (get_tag_frequency cutoff rows ≠ [] →
      tag_average (get_tag_frequency cutoff rows) =
        ((get_tag_frequency cutoff rows).map (fun x => (x.2 : ℚ))).sum /
          ((get_tag_frequency cutoff rows).length : ℚ) ∧
      0 < tag_average (get_tag_frequency cutoff rows) ∧
      over_tags (get_tag_frequency cutoff rows) =
        (get_tag_frequency cutoff rows).filter
          (fun x => tag_average (get_tag_frequency cutoff rows) * (3 / 2 : ℚ) < (x.2 : ℚ)) ∧
      under_tags (get_tag_frequency cutoff rows) =
        (get_tag_frequency cutoff rows).filter
          (fun x => (x.2 : ℚ) < tag_average (get_tag_frequency cutoff rows) * (1 / 2 : ℚ))) := by
  have hpos := get_tag_frequency_values_pos cutoff rows
  constructor
  · intro he
    rw [he]
    refine ⟨rfl, ?_, ?_⟩ <;> simp [over_tags, under_tags, tag_average]
  · intro hne
    have hlen : 0 < ((get_tag_frequency cutoff rows).length : ℚ) := by
      have := List.length_pos.mpr hne
      exact_mod_cast this
    have havg_eq : tag_average (get_tag_frequency cutoff rows) =
        ((get_tag_frequency cutoff rows).map (fun x => (x.2 : ℚ))).sum /
          ((get_tag_frequency cutoff rows).length : ℚ) := by
      unfold tag_average
      rw [if_neg (by simp [List.isEmpty_iff, hne])]
    have hsum := sum_cast_ge_length _ hpos
    have havg_pos : 0 < tag_average (get_tag_frequency cutoff rows) := by
      rw [havg_eq]
      exact div_pos (lt_of_lt_of_le hlen hsum) hlen
    refine ⟨havg_eq, havg_pos, ?_, ?_⟩
    · unfold over_tags
      rw [if_pos (ne_of_gt havg_pos)]
    · unfold under_tags
      rw [if_pos (ne_of_gt havg_pos)]

/-- C7 witness: a one-row tagged store has a positive average and an exact
sum/len value. -/
theorem C7_witness :
    0 < tag_average (get_tag_frequency "2025-01-01"
      [{ id := 1, date := "2025-02-01", title := "A", recipe_id := none,
         tags := some "a,b", status := "cooked", portions := none, notes := none,
         created_at := "t", updated_at := "t" }]) :=
  ((C7_tag_balance_guard "2025-01-01"
    [{ id := 1, date := "2025-02-01", title := "A", recipe_id := none,
       tags := some "a,b", status := "cooked", portions := none, notes := none,
       created_at := "t", updated_at := "t" }]).2 (by decide)).2.1

/-- With only `start_date` supplied, the WHERE clause of `get_meals` is the
single date lower bound. -/
theorem mealMatches_start_only (cutoff : String) (hc : cutoff ≠ "") (r : MealRecord) :
    mealMatches (some cutoff) none none none r = strLe cutoff r.date := by
  unfold mealMatches mealMatchesBase
  rw [pyTruthy_some hc]
  simp [pyTruthy]

/-- The ad-hoc counter over the fetched window equals the direct row count
per title. -/
theorem adhocCounts_meals_getD (cutoff : String) (hc : cutoff ≠ "")
    (rows : List MealRecord) (t : String) :
    dictGetD (adhocCounts (get_meals (some cutoff) none none none rows)) t =
      adhocTitleCount cutoff rows t := by
  rw [adhocCounts_getD]
  unfold adhocTitleCount
  have hperm : (get_meals (some cutoff) none none none rows).Perm
      (rows.filter (mealMatches (some cutoff) none none none)) := by
    unfold get_meals
    exact sortWith_perm _ _
  rw [List.Perm.length_eq (hperm.filter _)]
  rw [List.filter_filter]
  congr 1
  apply List.filter_congr
  intro r _
  rw [mealMatches_start_only cutoff hc r]
  by_cases h1 : r.recipe_id.isNone = true <;>
    by_cases h2 : r.status = "cooked" <;>
      by_cases h3 : r.title = t <;>
        by_cases h4 : strLe cutoff r.date = true <;>
          simp [h1, h2, h3, h4]

/-- C6: `frequent_adhoc_meals` is computed from the records with
`date >= today - days_back` (no upper bound, no status filter at fetch
time), keeps the cooked null-recipe rows, counts per title, retains
exactly the titles with count ≥ 3 sorted by count descending with the
stable tie order inherited from the counting pass, and on the spec's
example (3 cooked ad-hoc "Leftovers", 2 cooked ad-hoc "Toast") returns
only `[("Leftovers", 3)]`. -/
theorem C6_frequent_adhoc_meals (cutoff : String) (rows : List MealRecord)
    (hc : cutoff ≠ "") :
    (∀ t c, (t, c) ∈ frequent_adhoc cutoff rows ↔
        (adhocTitleCount cutoff rows t = c ∧ 3 ≤ c)) ∧
    (frequent_adhoc cutoff rows).Pairwise (fun a b => b.2 ≤ a.2) ∧
    (∀ k, 3 ≤ k →
      (frequent_adhoc cutoff rows).filter (fun x => x.2 = k) =
        (adhocCounts (get_meals (some cutoff) none none none rows)).filter
          (fun x => x.2 = k)) ∧
    frequent_adhoc "2025-01-01"
      [{ id := 1, date := "2025-02-01", title := "Leftovers", recipe_id := none,
         tags := none, status := "cooked", portions := none, notes := none,
         created_at := "t", updated_at := "t" },
       { id := 2, date := "2025-02-02", title := "Leftovers", recipe_id := none,
         tags := none, status := "cooked", portions := none, notes := none,
         created_at := "t", updated_at := "t" },
       { id := 3, date := "2025-02-03", title := "Leftovers", recipe_id := none,
         tags := none, status := "cooked", portions := none, notes := none,
         created_at := "t", updated_at := "t" },
       { id := 4, date := "2025-02-04", title := "Toast", recipe_id := none,
         tags := none, status := "cooked", portions := none, notes := none,
         created_at := "t", updated_at := "t" },
       { id := 5, date := "2025-02-05", title := "Toast", recipe_id := none,
         tags := none, status := "cooked", portions := none, notes := none,
         created_at := "t", updated_at := "t" }] = [("Leftovers", 3)] := by
  have hfa : frequent_adhoc cutoff rows =
      (sortWith countDescLt
        (adhocCounts (get_meals (some cutoff) none none none rows))).filter
        (fun x => 3 ≤ x.2) := rfl
  refine ⟨?_, ?_, ?_, by decide⟩
  · intro t c
    rw [hfa, List.mem_filter, mem_sortWith]
    rw [dict_mem_iff _ (adhocCounts_keysNodup _) t c,
        dictGet_eq_some_iff _ (adhocCounts_values_pos _) t c]
    rw [adhocCounts_meals_getD cutoff hc rows t]
    constructor
    · rintro ⟨⟨hcnt, _⟩, h3⟩
      exact ⟨hcnt, by simpa using h3⟩
    · rintro ⟨hcnt, h3⟩
      exact ⟨⟨hcnt, le_trans (by norm_num) h3⟩, by simpa⟩
  · rw [hfa]
    apply List.Pairwise.filter
    have hp := sortWith_pairwise countDescLt
      (by
        intro a b h
        simp only [countDescLt, decide_eq_true_eq] at h
        simp only [countDescLt, decide_eq_false_iff_not]
        omega)
      (by
        intro a b c h1 h2
        simp only [countDescLt, decide_eq_false_iff_not] at h1 h2 ⊢
        omega)
      (adhocCounts (get_meals (some cutoff) none none none rows))
    refine hp.imp ?_
    intro a b h
    simp only [countDescLt, decide_eq_false_iff_not] at h
    omega
  · intro k hk
    rw [hfa, List.filter_filter]
    have h1 : ∀ x ∈ sortWith countDescLt
        (adhocCounts (get_meals (some cutoff) none none none rows)),
        (decide (x.2 = k) && decide (3 ≤ x.2)) = decide (x.2 = k) := by
      intro x _
      by_cases hx : x.2 = k
      · simp [hx, hk]
      · simp [hx]
    rw [List.filter_congr h1]
    apply sortWith_filter_eq
    intro a b ha hb
    simp only [decide_eq_true_eq] at ha hb
    simp only [countDescLt, decide_eq_false_iff_not]
    omega

/-- C6 witness: the spec's Leftovers/Toast example via the claim theorem. -/
theorem C6_witness :
    frequent_adhoc "2025-01-01"
      [{ id := 1, date := "2025-02-01", title := "Leftovers", recipe_id := none,
         tags := none, status := "cooked", portions := none, notes := none,
         created_at := "t", updated_at := "t" },
       { id := 2, date := "2025-02-02", title := "Leftovers", recipe_id := none,
         tags := none, status := "cooked", portions := none, notes := none,
         created_at := "t", updated_at := "t" },
       { id := 3, date := "2025-02-03", title := "Leftovers", recipe_id := none,
         tags := none, status := "cooked", portions := none, notes := none,
         created_at := "t", updated_at := "t" },
       { id := 4, date := "2025-02-04", title := "Toast", recipe_id := none,
         tags := none, status := "cooked", portions := none, notes := none,
         created_at := "t", updated_at := "t" },
       { id := 5, date := "2025-02-05", title := "Toast", recipe_id := none,
         tags := none, status := "cooked", portions := none, notes := none,
         created_at := "t", updated_at := "t" }] = [("Leftovers", 3)] :=
  (C6_frequent_adhoc_meals "2025-01-01" [] (by decide)).2.2.2

/-- `staleGroups` unfolded (the let-bound eligible set made explicit). -/
theorem staleGroups_eq (ws : String) (rows : List MealRecord) :
    staleGroups ws rows =
      (dedupKeys ((rows.filter (staleEligible ws)).map staleKey)).filterMap
        (fun k => groupSummary ((rows.filter (staleEligible ws)).filter
          (fun r => staleKey r = k))) := rfl

/-- A key that appears among the eligible rows has a non-empty group. -/
theorem stale_filter_ne_nil (elig : List MealRecord) (k : Int ⊕ String)
    (hk : k ∈ elig.map staleKey) :
    elig.filter (fun r => staleKey r = k) ≠ [] := by
  obtain ⟨r, hr, hkey⟩ := List.mem_map.mp hk
  exact List.ne_nil_of_mem (List.mem_filter.mpr ⟨hr, by simp [hkey]⟩)

/-- The head of a key's group carries that key. -/
theorem head_key_of_filter (elig : List MealRecord) (k : Int ⊕ String)
    (r : MealRecord) (rest : List MealRecord)
    (hgrp : elig.filter (fun r => staleKey r = k) = r :: rest) :
    staleKey r = k := by
  have hm : r ∈ elig.filter (fun r => staleKey r = k) := by
    rw [hgrp]; exact List.mem_cons_self _ _
  have := (List.mem_filter.mp hm).2
  simpa using this

/-- The summary row of a non-empty group: identity fields from the first
row, `times_cooked` the group size, `last_date` a date of the group that
bounds every date of the group from above. -/
theorem groupSummary_props (r : MealRecord) (rest : List MealRecord) :
    ∃ g, groupSummary (r :: rest) = some g ∧
      g.title = r.title ∧ g.recipe_id = r.recipe_id ∧
      g.times_cooked = (r :: rest).length ∧
      g.last_date ∈ (r :: rest).map (fun x => x.date) ∧
      (∀ x ∈ r :: rest, strLe x.date g.last_date = true) := by
  refine ⟨{ title := r.title, recipe_id := r.recipe_id,
            last_date := maxDateOf r.date rest,
            times_cooked := (r :: rest).length }, rfl, rfl, rfl, rfl, ?_, ?_⟩
  · unfold maxDateOf
    rcases foldl_strMax_mem (rest.map (fun x => x.date)) r.date with h | h
    · rw [List.map_cons, h]
      exact List.mem_cons_self _ _
    · rw [List.map_cons]
      exact List.mem_cons_of_mem _ h
  · intro x hx
    unfold maxDateOf
    rcases List.mem_cons.mp hx with rfl | hx'
    · exact foldl_strMax_init _ _
    · exact foldl_strMax_le _ _ _ (List.mem_map.mpr ⟨x, hx', rfl⟩)

/-- A summary row that copies identity fields from a group row has that
row's grouping key. -/
theorem rowKey_eq_staleKey (g : StaleRow) (r : MealRecord)
    (ht : g.title = r.title) (hr : g.recipe_id = r.recipe_id) :
    rowKey g = staleKey r := by
  unfold rowKey staleKey
  rw [ht, hr]

/-- Every group produced by `staleGroups` is keyed by an eligible key, has
`times_cooked` equal to the group size and `last_date` equal to the
group's maximal date. -/
theorem staleGroups_mem_props (ws : String) (rows : List MealRecord) (g : StaleRow)
    (hg : g ∈ staleGroups ws rows) :
    rowKey g ∈ (rows.filter (staleEligible ws)).map staleKey ∧
    g.times_cooked = ((rows.filter (staleEligible ws)).filter
        (fun r => staleKey r = rowKey g)).length ∧
    g.last_date ∈ ((rows.filter (staleEligible ws)).filter
        (fun r => staleKey r = rowKey g)).map (fun r => r.date) ∧
    (∀ r ∈ (rows.filter (staleEligible ws)).filter (fun r => staleKey r = rowKey g),
      strLe r.date g.last_date = true) := by
  rw [staleGroups_eq] at hg
  obtain ⟨k, hkdedup, hsum⟩ := List.mem_filterMap.mp hg
  have hkmem : k ∈ (rows.filter (staleEligible ws)).map staleKey :=
    (mem_dedupKeys _ _).mp hkdedup
  cases hgrp : (rows.filter (staleEligible ws)).filter (fun r => staleKey r = k) with
  | nil =>
    rw [hgrp] at hsum
    exact absurd hsum (by simp [groupSummary])
  | cons r rest =>
    obtain ⟨g', hg'eq, ht, hr, hcnt, hmem, hle⟩ := groupSummary_props r rest
    rw [hgrp] at hsum
    rw [hg'eq] at hsum
    have hgg : g' = g := by simpa using hsum
    subst hgg
    have hrk : staleKey r = k := head_key_of_filter _ k r rest hgrp
    have hgk : rowKey g' = k := by rw [rowKey_eq_staleKey g' r ht hr, hrk]
    rw [hgk, hgrp]
    exact ⟨hgk ▸ hkmem, hcnt, hmem, hle⟩

/-- Every eligible key yields a group in `staleGroups`. -/
theorem staleGroups_covers (ws : String) (rows : List MealRecord) (k : Int ⊕ String)
    (hk : k ∈ (rows.filter (staleEligible ws)).map staleKey) :
    ∃ g ∈ staleGroups ws rows, rowKey g = k := by
  have hne := stale_filter_ne_nil _ k hk
  cases hgrp : (rows.filter (staleEligible ws)).filter (fun r => staleKey r = k) with
  | nil => exact absurd hgrp hne
  | cons r rest =>
    obtain ⟨g, hgeq, ht, hr, _, _, _⟩ := groupSummary_props r rest
    refine ⟨g, ?_, ?_⟩
    · rw [staleGroups_eq]
      exact List.mem_filterMap.mpr
        ⟨k, (mem_dedupKeys _ _).mpr hk, by rw [hgrp]; exact hgeq⟩
    · rw [rowKey_eq_staleKey g r ht hr, head_key_of_filter _ k r rest hgrp]

/-- Mapping a section back over a `filterMap` recovers the key list. -/
theorem map_filterMap_of_section {κ γ : Type} (f : κ → Option γ) (key : γ → κ) :
    ∀ ks : List κ, (∀ k ∈ ks, ∃ g, f k = some g ∧ key g = k) →
      (ks.filterMap f).map key = ks := by
  intro ks
  induction ks with
  | nil => intro _; rfl
  | cons k ks' ih =>
    intro h
    obtain ⟨g, hf, hk⟩ := h k (List.mem_cons_self _ _)
    rw [List.filterMap_cons, hf, List.map_cons, hk,
      ih (fun k2 h2 => h k2 (List.mem_cons_of_mem _ h2))]

/-- One group per distinct key: the recovered key list of `staleGroups`
has no duplicates. -/
theorem staleGroups_keys_nodup (ws : String) (rows : List MealRecord) :
    ((staleGroups ws rows).map rowKey).Nodup := by
  have heq : (staleGroups ws rows).map rowKey =
      dedupKeys ((rows.filter (staleEligible ws)).map staleKey) := by
    rw [staleGroups_eq]
    apply map_filterMap_of_section
    intro k hk
    have hkm := (mem_dedupKeys _ _).mp hk
    have hne := stale_filter_ne_nil _ k hkm
    cases hgrp : (rows.filter (staleEligible ws)).filter (fun r => staleKey r = k) with
    | nil => exact absurd hgrp hne
    | cons r rest =>
      obtain ⟨g, hgeq, ht, hr, _, _, _⟩ := groupSummary_props r rest
      refine ⟨g, hgeq, ?_⟩
      rw [rowKey_eq_staleKey g r ht hr, head_key_of_filter _ k r rest hgrp]
  rw [heq]
  exact dedupKeys_nodup _

/-- C5: `get_stale_meals` returns exactly the groups of `staleGroups`
(grouped by `COALESCE(recipe_id, title)` over the eligible rows) whose
`last_date` precedes the staleness cutoff, ordered by `last_date`
ascending; every group counts its rows and maximises their dates, each
eligible key appears exactly once; the spec's Soup examples evaluate as
stated (today = 2025-03-11, days = 90, min_gap = 30). -/
theorem C5_stale_meals_grouping (ws sc : String) (rows : List MealRecord) :
    (∀ g, g ∈ get_stale_meals ws sc rows ↔
        (g ∈ staleGroups ws rows ∧ strLt g.last_date sc = true)) ∧
    (get_stale_meals ws sc rows).Pairwise
      (fun a b => strLe a.last_date b.last_date = true) ∧
    (∀ g ∈ staleGroups ws rows,
      rowKey g ∈ (rows.filter (staleEligible ws)).map staleKey ∧
      g.times_cooked = ((rows.filter (staleEligible ws)).filter
          (fun r => staleKey r = rowKey g)).length ∧
      g.last_date ∈ ((rows.filter (staleEligible ws)).filter
          (fun r => staleKey r = rowKey g)).map (fun r => r.date) ∧
      (∀ r ∈ (rows.filter (staleEligible ws)).filter (fun r => staleKey r = rowKey g),
        strLe r.date g.last_date = true)) ∧
    (∀ k ∈ (rows.filter (staleEligible ws)).map staleKey,
      ∃ g ∈ staleGroups ws rows, rowKey g = k) ∧
    ((staleGroups ws rows).map rowKey).Nodup ∧
    get_stale_meals "2024-12-11" "2025-02-09"
      [{ id := 1, date := "2025-01-30", title := "Soup", recipe_id := none,
         tags := none, status := "cooked", portions := none, notes := none,
         created_at := "t", updated_at := "t" }] =
      [{ title := "Soup", recipe_id := none, last_date := "2025-01-30",
         times_cooked := 1 }] ∧
    get_stale_meals "2024-12-11" "2025-02-09"
      [{ id := 1, date := "2025-01-30", title := "Soup", recipe_id := none,
         tags := none, status := "cooked", portions := none, notes := none,
         created_at := "t", updated_at := "t" },
       { id := 2, date := "2025-03-01", title := "Soup", recipe_id := none,
         tags := none, status := "cooked", portions := none, notes := none,
         created_at := "t", updated_at := "t" }] = [] := by
  refine ⟨?_, ?_, staleGroups_mem_props ws rows,
    staleGroups_covers ws rows, staleGroups_keys_nodup ws rows, by decide, by decide⟩
  · intro g
    unfold get_stale_meals
    rw [mem_sortWith, List.mem_filter]
  · unfold get_stale_meals
    have hp := sortWith_pairwise lastAscLt
      (by
        intro a b h
        unfold lastAscLt strLt at h ⊢
        exact lexLtCh_asymm _ _ h)
      (by
        intro a b c h1 h2
        unfold lastAscLt strLt at h1 h2 ⊢
        exact lexLtCh_transNeg _ _ _ h1 h2)
      ((staleGroups ws rows).filter (fun g => strLt g.last_date sc))
    refine hp.imp ?_
    intro a b h
    exact strLe_of_strLt_false h

/-- C5 witness: the single-Soup store yields its group via the membership
characterisation. -/
theorem C5_witness :
    ({ title := "Soup", recipe_id := none, last_date := "2025-01-30",
       times_cooked := 1 } : StaleRow) ∈
      get_stale_meals "2024-12-11" "2025-02-09"
        [{ id := 1, date := "2025-01-30", title := "Soup", recipe_id := none,
           tags := none, status := "cooked", portions := none, notes := none,
           created_at := "t", updated_at := "t" }] :=
  ((C5_stale_meals_grouping "2024-12-11" "2025-02-09"
    [{ id := 1, date := "2025-01-30", title := "Soup", recipe_id := none,
       tags := none, status := "cooked", portions := none, notes := none,
       created_at := "t", updated_at := "t" }]).1 _).mpr ⟨by decide, by decide⟩
